import Mathlib

/-!
Verification of the travel-time scraper/analytics script (`gmap.py`).

The Python source is shallowly embedded: each relevant Python function is
translated into an executable Lean definition with the same name where Lean
allows it.  Python `str` values are modelled as Lean `String` / `List Char`
(ASCII fragment: `str.lower`, `str.isdigit`, `str.split`, `str.strip` are
modelled on their ASCII behaviour, which is the fragment the program relies
on).  Python `None` becomes `Option.none`, exceptions become `Except`.
-/

namespace Gmap

/-! ## Character helpers (ASCII models of the `str` methods used) -/

/-- Whitespace characters recognised by `str.split()` / `str.strip()`
(ASCII fragment): space, tab, newline, vertical tab, form feed, carriage
return, identified by code point. -/
def isPySpace (c : Char) : Bool :=
  decide (c.toNat = 32 ∨ c.toNat = 9 ∨ c.toNat = 10 ∨ c.toNat = 11 ∨
    c.toNat = 12 ∨ c.toNat = 13)

/-- `str.isdigit` on a single character (ASCII fragment): code points 48-57. -/
def isDigitChar (c : Char) : Bool :=
  decide (48 ≤ c.toNat ∧ c.toNat ≤ 57)

/-- `str.lower` on one character (ASCII fragment): shift A-Z to a-z. -/
def pyLowerChar (c : Char) : Char :=
  if 65 ≤ c.toNat ∧ c.toNat ≤ 90 then Char.ofNat (c.toNat + 32) else c

/-- `str.strip()` on a character list: drop leading and trailing whitespace. -/
def pyStripChars (cs : List Char) : List Char :=
  ((cs.dropWhile isPySpace).reverse.dropWhile isPySpace).reverse

/-- `str.strip()`. -/
def pyStrip (s : String) : String := ⟨pyStripChars s.data⟩

/-- Accumulator-style worker for `str.split()`: `acc` holds the current word
reversed; whitespace closes the word. -/
def splitWSAux : List Char → List Char → List (List Char)
  | [], acc => if acc.isEmpty then [] else [acc.reverse]
  | c :: cs, acc =>
    if isPySpace c then
      if acc.isEmpty then splitWSAux cs []
      else acc.reverse :: splitWSAux cs []
    else splitWSAux cs (c :: acc)

/-- `str.split()` with no separator: split on whitespace runs, drop empties. -/
def splitWS (cs : List Char) : List (List Char) := splitWSAux cs []

/-- Worker for `str.replace(pat, repl)` with nonempty `pat`: on a match the
scan continues after the matched text, otherwise one character is emitted.
`fuel` only bounds the number of steps (each step consumes at least one
character, so `cs.length` is always enough); when it runs out the rest is
returned unchanged. -/
def replaceAllF (pat repl : List Char) : Nat → List Char → List Char
  | 0, cs => cs
  | _ + 1, [] => []
  | fuel + 1, c :: cs =>
    if pat ≠ [] ∧ pat.isPrefixOf (c :: cs) then
      repl ++ replaceAllF pat repl fuel ((c :: cs).drop pat.length)
    else c :: replaceAllF pat repl fuel cs

/-- `str.replace(pat, repl)`: replace every non-overlapping occurrence of
`pat`, scanning left to right.  (For the empty pattern the Python semantics
differ, but the program only replaces the nonempty `"hrs"` / `"mins"`.) -/
def replaceAll (pat repl : List Char) (cs : List Char) : List Char :=
  replaceAllF pat repl cs.length cs

/-! ## `parse_duration_minutes` (gmap.py lines 201-219) -/

/-- The character list of `"hr"`. -/
def hrChars : List Char := ['h', 'r']

/-- The character list of `"min"`. -/
def minChars : List Char := ['m', 'i', 'n']

/-- `token.isdigit()`: nonempty and all digits. -/
def tokIsDigit (t : List Char) : Bool := !t.isEmpty && t.all isDigitChar

/-- `int(token)` for a digit token. -/
def digitsVal (t : List Char) : Int :=
  t.foldl (fun acc c => acc * 10 + ((c.toNat : Int) - 48)) 0

/-- The token scan of `parse_duration_minutes`: each digit token followed by a
token starting with `hr` contributes to hours, with `min` to minutes.
Returns the `(hours, minutes)` accumulators. -/
def accumHM : List (List Char) → Int × Int
  | [] => (0, 0)
  | [_] => (0, 0)
  | t :: u :: rest =>
    let hm := accumHM (u :: rest)
    if tokIsDigit t then
      if hrChars.isPrefixOf u then (hm.1 + digitsVal t, hm.2)
      else if minChars.isPrefixOf u then (hm.1, hm.2 + digitsVal t)
      else hm
    else hm

/-- `duration_text.lower().replace("hrs", "hr").replace("mins", "min")`. -/
def normalizeDur (cs : List Char) : List Char :=
  replaceAll ['m', 'i', 'n', 's'] minChars
    (replaceAll ['h', 'r', 's'] hrChars (cs.map pyLowerChar))

/-- The token list `parse_duration_minutes` scans. -/
def duration_tokens (s : String) : List (List Char) := splitWS (normalizeDur s.data)

/-- `hours * 60 + minutes` as computed by `parse_duration_minutes`. -/
def duration_total (s : String) : Int :=
  (accumHM (duration_tokens s)).1 * 60 + (accumHM (duration_tokens s)).2

/-- gmap.py `parse_duration_minutes`: convert strings like `"1 hr 5 min"` or
`"45 min"` to total minutes; `None` for falsy input or a non-positive total. -/
def parse_duration_minutes (duration_text : Option String) : Option Int :=
  match duration_text with
  | none => none
  | some s =>
    if s = "" then none
    else if 0 < duration_total s then some (duration_total s) else none

/-- Whether the token scan finds at least one digit-token/unit-token pair. -/
def hasContribPair : List (List Char) → Bool
  | [] => false
  | [_] => false
  | t :: u :: rest =>
    (tokIsDigit t && (hrChars.isPrefixOf u || minChars.isPrefixOf u)) ||
      hasContribPair (u :: rest)

/-! ## `extract_duration_fragment` (gmap.py lines 222-233)

The three regex patterns `\d+\s*hr\s*\d+\s*min`, `\d+\s*hr`, `\d+\s*min`
(with `re.IGNORECASE`) are deterministic under maximal munch: after a maximal
`\d+` run the next character is not a digit, hence can only be consumed by
`\s*` or the literal; after a maximal `\s*` run the next character is not
whitespace, hence can only be the literal.  Backtracking therefore never
produces a match that maximal munch misses, so the matcher below is an exact
model of `re.search` on these patterns. -/

/-- Case-insensitive literal match at the front; returns the rest on success.
The literal is given lowercased. -/
def matchLitCI : List Char → List Char → Option (List Char)
  | [], cs => some cs
  | _ :: _, [] => none
  | l :: ls, c :: cs => if pyLowerChar c = l then matchLitCI ls cs else none

/-- Match `\d+\s*<unit>` at the front; returns `(matched text, rest)`. -/
def matchNumUnitAt (unit : List Char) (cs : List Char) : Option (List Char × List Char) :=
  let ds := cs.takeWhile isDigitChar
  let r1 := cs.dropWhile isDigitChar
  if ds.isEmpty then none
  else
    let sp := r1.takeWhile isPySpace
    let r2 := r1.dropWhile isPySpace
    match matchLitCI unit r2 with
    | some rest => some (ds ++ sp ++ r2.take unit.length, rest)
    | none => none

/-- Match `\d+\s*hr\s*\d+\s*min` at the front; returns the matched text. -/
def matchHrMinAt (cs : List Char) : Option (List Char) :=
  match matchNumUnitAt hrChars cs with
  | none => none
  | some (m1, rest) =>
    let sp := rest.takeWhile isPySpace
    let r := rest.dropWhile isPySpace
    match matchNumUnitAt minChars r with
    | none => none
    | some (m2, _) => some (m1 ++ sp ++ m2)

/-- Match `\d+\s*hr` at the front; returns the matched text. -/
def matchHrAt (cs : List Char) : Option (List Char) :=
  (matchNumUnitAt hrChars cs).map Prod.fst

/-- Match `\d+\s*min` at the front; returns the matched text. -/
def matchMinAt (cs : List Char) : Option (List Char) :=
  (matchNumUnitAt minChars cs).map Prod.fst

/-- `re.search`: try the matcher at each position, leftmost first (the
position at the end of the text included). -/
def searchFirst (m : List Char → Option (List Char)) : List Char → Option (List Char)
  | [] => m []
  | c :: cs =>
    match m (c :: cs) with
    | some r => some r
    | none => searchFirst m cs

/-- gmap.py `extract_duration_fragment`: pull a plausible duration fragment
from free text, trying the three patterns in priority order. -/
def extract_duration_fragment (text : String) : Option String :=
  match searchFirst matchHrMinAt text.data with
  | some m => some ⟨m⟩
  | none =>
    match searchFirst matchHrAt text.data with
    | some m => some ⟨m⟩
    | none => (searchFirst matchMinAt text.data).map fun m => ⟨m⟩

/-! ## Selector and card accessors (gmap.py lines 236-278 and 670-681)

A page is modelled by what the Playwright accessors would return: for each
selector, `none` when `query_selector` finds no node, `some t` when it finds
a node with inner text `t`. -/

/-- The per-field selector loop of `scrape_page` (lines 675-680): the first
selector whose node exists wins and its stripped text is used, even when
that text is empty. -/
def scrape_page_field : List (Option String) → Option String
  | [] => none
  | none :: rest => scrape_page_field rest
  | some t :: _ => some (pyStrip t)

/-- gmap.py `scrape_duration_value` (lines 236-245): the first selector whose
node exists and whose stripped text is nonempty wins. -/
def scrape_duration_value : List (Option String) → Option String
  | [] => none
  | none :: rest => scrape_duration_value rest
  | some t :: rest => if pyStrip t = "" then scrape_duration_value rest else some (pyStrip t)

/-- `" ".join(text.split())`: collapse whitespace runs to single spaces. -/
def pyFlatten (s : String) : String := ⟨List.intercalate [' '] (splitWS s.data)⟩

/-- gmap.py `route_card_text`: flattened text of the first route card. -/
def route_card_text (node : Option String) : Option String :=
  match node with
  | none => none
  | some t => if pyStrip t = "" then none else some (pyFlatten (pyStrip t))

/-- gmap.py `route_cards_texts`: flattened texts of all route cards, in
order, keeping only those with nonempty stripped text. -/
def route_cards_texts (nodes : List String) : List String :=
  nodes.filterMap fun t =>
    if pyStrip t = "" then none else some (pyFlatten (pyStrip t))

/-- One selector step of `snapshot_text`: flattened text truncated to 800
characters, when the node exists and has nonempty stripped text. -/
def snapshotOf (node : Option String) : Option String :=
  match node with
  | none => none
  | some t =>
    if pyStrip t = "" then none else some ⟨(pyFlatten (pyStrip t)).data.take 800⟩

/-- gmap.py `snapshot_text` (lines 269-278): first route card, then the page
body, else the empty string. -/
def snapshot_text (firstCard body : Option String) : String :=
  match snapshotOf firstCard with
  | some s => s
  | none =>
    match snapshotOf body with
    | some s => s
    | none => ""

/-! ## Multi-card fallback selection (gmap.py lines 750-764) -/

/-- The card loop of the multi-card fallback: for each card text, in order,
keep `(fragment, minutes)` when the fragment extractor and the parser both
succeed (the two parallel Python lists `fragments` / `minutes_list`, zipped). -/
def multi_card_pairs (cards : List String) : List (String × Int) :=
  cards.filterMap fun card =>
    match extract_duration_fragment card with
    | none => none
    | some frag =>
      if frag = "" then none
      else
        match parse_duration_minutes (some frag) with
        | none => none
        | some v => some (frag, v)

/-- Python `min` over a nonempty list, head split off. -/
def pyMin {α : Type _} [LinearOrder α] (v : α) (vs : List α) : α := vs.foldl min v

/-- Python `max` over a nonempty list, head split off. -/
def pyMax {α : Type _} [LinearOrder α] (v : α) (vs : List α) : α := vs.foldl max v

/-- `best_idx = minutes_list.index(min(minutes_list))` followed by indexing
both parallel lists (lines 761-764); `none` when there is no candidate. -/
def multi_card_select (cards : List String) : Option (String × Int) :=
  let pairs := multi_card_pairs cards
  let fragments := pairs.map Prod.fst
  let minutes_list := pairs.map Prod.snd
  match minutes_list with
  | [] => none
  | v :: vs =>
    let best_idx := (v :: vs).indexOf (pyMin v vs)
    some (fragments.getD best_idx "", (v :: vs).getD best_idx 0)

/-! ## The extraction pipeline (gmap.py `main`, lines 731-773) -/

/-- What the page accessors would return for one route, at the times the
pipeline queries them. -/
structure PageModel where
  /-- `query_selector` results for the duration selector list in `scrape_page`. -/
  primaryNodes : List (Option String)
  /-- The same selectors re-queried by `scrape_duration_value` after the
  3000 ms retry wait. -/
  retryNodes : List (Option String)
  /-- Inner text of `#section-directions-trip-0`, when present. -/
  firstCard : Option String
  /-- Inner texts of all `[id^='section-directions-trip-']` nodes, in order. -/
  cards : List String
  /-- Inner text of `body`, when present (snapshot fallback). -/
  body : Option String
deriving DecidableEq

/-- The diagnostic record written by `log_snapshot` on a failed extraction. -/
structure Diag where
  raw_first : Option String
  raw_retry : Option String
  fragment : Option String
  snapshot : String
deriving DecidableEq

/-- The per-route result of the duration extraction. -/
structure Outcome where
  duration_text : Option String
  duration_minutes : Option Int
  diagnostic : Option Diag
deriving DecidableEq

/-- The retry tier (lines 739-743): if `scrape_duration_value` finds a truthy
text after the wait, it becomes the duration text and is parsed; otherwise
the running `(duration_text, duration_minutes)` state keeps `text0` and the
still-missing minutes. -/
def retry_step (retryNodes : List (Option String)) (text0 : Option String) :
    Option String × Option Int :=
  match scrape_duration_value retryNodes with
  | some t =>
    if t = "" then (text0, none) else (some t, parse_duration_minutes (some t))
  | none => (text0, none)

/-- `derived_fragment` (line 746): fragment extracted from the first card's
truthy text. -/
def card_fragment (firstCard : Option String) : Option String :=
  match route_card_text firstCard with
  | some ct => if ct = "" then none else extract_duration_fragment ct
  | none => none

/-- The single-card tier (lines 747-749): a truthy derived fragment becomes
the duration text and is parsed. -/
def card_step (frag : Option String) (text1 : Option String) :
    Option String × Option Int :=
  match frag with
  | some f =>
    if f = "" then (text1, none) else (some f, parse_duration_minutes (some f))
  | none => (text1, none)

/-- The tiered duration extraction of `main` (lines 731-773): primary
selector scrape, retry scrape, first-card fragment, multi-card minimum,
else a diagnostic record and a null duration. -/
def extract_pipeline (pg : PageModel) : Outcome :=
  let raw_first := scrape_page_field pg.primaryNodes
  match parse_duration_minutes raw_first with
  | some v => ⟨raw_first, some v, none⟩
  | none =>
    let st1 := retry_step pg.retryNodes raw_first
    match st1.2 with
    | some v => ⟨st1.1, some v, none⟩
    | none =>
      let st2 := card_step (card_fragment pg.firstCard) st1.1
      match st2.2 with
      | some v => ⟨st2.1, some v, none⟩
      | none =>
        match multi_card_select (route_cards_texts pg.cards) with
        | some (frag, v) => ⟨some frag, some v, none⟩
        | none =>
          let snap := snapshot_text pg.firstCard pg.body
          ⟨st2.1, none,
            some ⟨raw_first, scrape_duration_value pg.retryNodes,
              card_fragment pg.firstCard, snap⟩⟩

/-! ## The per-route loop of `main` (lines 720-727)

`scrape_page` navigation is modelled by an `Except`: `.error e` when
`page.goto` raises.  The `except` clause logs and re-raises, so the loop
stops at the first navigation failure; routes before it have already been
processed and written. -/

/-- Run the measurement loop over routes: returns the durations of the
routes processed (in order) and the propagated exception, if any. -/
def runRoutes : List (Except String PageModel) → List (Option Int) × Option String
  | [] => ([], none)
  | Except.error e :: _ => ([], some e)
  | Except.ok pg :: rest =>
    let r := runRoutes rest
    ((extract_pipeline pg).duration_minutes :: r.1, r.2)

/-! ## `parse_timestamp` / `load_csv_points` (gmap.py lines 304-329)

`datetime` values are modelled by a wall-clock reading plus an optional UTC
offset (`tzinfo`).  `LOCAL_TZ` (`America/Toronto`) is modelled as a fixed
offset zone; the row's `timestamp_local` field is modelled by what
`datetime.fromisoformat` would return for it (`none` when the field is empty
or `fromisoformat` raises), and the `duration_minutes` field by what
`float(...)` would return (`none` when it raises on a missing or
non-numeric field). -/

/-- A Python `datetime`: naive wall-clock value, plus UTC offset in minutes
when timezone-aware. -/
structure PyDateTime where
  naive : Int
  tz : Option Int
deriving DecidableEq

/-- The configured local zone's UTC offset in minutes (fixed-offset model of
`America/Toronto`). -/
def LOCAL_OFFSET : Int := -300

/-- The absolute instant of an aware datetime (UTC wall clock). -/
def instantOf (dt : PyDateTime) : Int := dt.naive - dt.tz.getD 0

/-- `dt.astimezone(LOCAL_TZ)`: same instant, local representation. -/
def astimezoneLocal (dt : PyDateTime) : PyDateTime :=
  { naive := instantOf dt + LOCAL_OFFSET, tz := some LOCAL_OFFSET }

/-- gmap.py `parse_timestamp`: an aware datetime is converted to the local
zone; a naive one is assumed to already be local (`dt.replace(tzinfo=LOCAL_TZ)`). -/
def parse_timestamp (value : Option PyDateTime) : Option PyDateTime :=
  match value with
  | none => none
  | some dt =>
    some (if dt.tz.isSome then astimezoneLocal dt else { dt with tz := some LOCAL_OFFSET })

/-- One persisted CSV row, with its two fields pre-decoded by the external
`fromisoformat` / `float` collaborators. -/
structure CsvRow where
  timestamp_local : Option PyDateTime
  duration_minutes : Option Int
deriving DecidableEq

/-- The sort key comparison `key=lambda p: p[0]` on aware datetimes. -/
def tsLe (p q : PyDateTime × Int) : Bool := instantOf p.1 ≤ instantOf q.1

/-- A row survives read-back iff its timestamp parses and its duration is
numeric. -/
def rowOk (row : CsvRow) : Bool :=
  (parse_timestamp row.timestamp_local).isSome && row.duration_minutes.isSome

/-- The projection of the rows that survive read-back, in file order. -/
def rowPoints (rows : List CsvRow) : List (PyDateTime × Int) :=
  rows.filterMap fun row =>
    match parse_timestamp row.timestamp_local, row.duration_minutes with
    | some ts, some d => some (ts, d)
    | _, _ => none

/-- gmap.py `load_csv_points`: keep rows with parsable timestamp and numeric
duration, sorted ascending by timestamp. -/
def load_csv_points (rows : List CsvRow) : List (PyDateTime × Int) :=
  (rowPoints rows).mergeSort tsLe

/-! ## `percentile` (gmap.py lines 423-439)

Python float arithmetic is modelled exactly over `ℚ`. -/

/-- Python `int()`: truncation toward zero. -/
def pyTrunc (q : ℚ) : ℤ := if 0 ≤ q then ⌊q⌋ else ⌈q⌉

/-- gmap.py `percentile`: linear-interpolation percentile over `values`. -/
def percentile (values : List ℚ) (pct : ℚ) : Option ℚ :=
  if values = [] then none
  else
    let sorted_vals := values.mergeSort (fun a b => a ≤ b)
    let n := sorted_vals.length
    if pct ≤ 0 then some (sorted_vals.getD 0 0)
    else if 100 ≤ pct then some (sorted_vals.getD (n - 1) 0)
    else
      let k : ℚ := ((n : ℚ) - 1) * (pct / 100)
      let f : ℤ := pyTrunc k
      let c : ℤ := min (f + 1) ((n : ℤ) - 1)
      if f = c then some (sorted_vals.getD f.toNat 0)
      else
        some (sorted_vals.getD f.toNat 0 * ((c : ℚ) - k) +
          sorted_vals.getD c.toNat 0 * (k - (f : ℚ)))


/-- Modelled from the spec: `percentile(values, p)` per the spec's words —
`p ≤ 0` gives the minimum, `p ≥ 100` the maximum, otherwise the linear
interpolation between the two bracketing order statistics of the sorted
values at rank `(len - 1) * p / 100`. -/
def percentileSpec (values : List ℚ) (pct : ℚ) : Option ℚ :=
  match values with
  | [] => none
  | v :: vs =>
    if pct ≤ 0 then some (pyMin v vs)
    else if 100 ≤ pct then some (pyMax v vs)
    else
      let sv := (v :: vs).mergeSort (fun a b => a ≤ b)
      let k : ℚ := ((sv.length : ℚ) - 1) * pct / 100
      let lo := sv.getD (⌊k⌋).toNat 0
      let hi := sv.getD (⌈k⌉).toNat 0
      some (lo + (k - (⌊k⌋ : ℚ)) * (hi - lo))

/-! ## Decimation (gmap.py `generate_graph`, lines 491-497) -/

/-- Worker for Python slicing `points[::step]` (positive `step`): `k` counts
down to the next kept element; a kept element resets it to `step - 1`. -/
def everyNthAux (step : Nat) : List α → Nat → List α
  | [], _ => []
  | x :: xs, 0 => x :: everyNthAux step xs (step - 1)
  | _ :: xs, k + 1 => everyNthAux step xs k

/-- Python slicing `points[::step]` for a positive step: indices
`0, step, 2·step, …`. -/
def everyNth (l : List α) (step : Nat) : List α := everyNthAux step l 0

/-- gmap.py `generate_graph` decimation: when there are more than
`maxPoints` points, keep every `max 1 (len / maxPoints)`-th one. -/
def decimate (points : List α) (maxPoints : Nat := 5000) : List α :=
  if maxPoints < points.length then
    everyNth points (max 1 (points.length / maxPoints))
  else points

/-! ## Concrete inputs used by counterexamples and witnesses -/

/-- A page whose primary selector immediately yields `45 min`. -/
def examplePage : PageModel :=
  { primaryNodes := [some "45 min"], retryNodes := [], firstCard := none,
    cards := [], body := none }

/-- A page on which every extraction tier fails. -/
def failingPage : PageModel :=
  { primaryNodes := [none], retryNodes := [none], firstCard := none,
    cards := ["no info"], body := some "nothing to see" }

/-! # Lemmas about decimation -/

lemma everyNthAux_length {α : Type _} (step : Nat) (h : 1 ≤ step) :
    ∀ (l : List α) (k : Nat), k < step →
      (everyNthAux step l k).length = (l.length + (step - 1 - k)) / step := by
  intro l
  induction l with
  | nil =>
    intro k hk
    simp only [everyNthAux, List.length_nil, Nat.zero_add]
    exact (Nat.div_eq_of_lt (by omega)).symm
  | cons x xs ih =>
    intro k hk
    cases k with
    | zero =>
      simp only [everyNthAux, List.length_cons]
      rw [ih (step - 1) (by omega)]
      have h1 : xs.length + (step - 1 - (step - 1)) = xs.length := by omega
      have h2 : xs.length + 1 + (step - 1 - 0) = xs.length + step := by omega
      rw [h1, h2, Nat.add_div_right _ (by omega)]
    | succ k =>
      simp only [everyNthAux, List.length_cons]
      rw [ih k (by omega)]
      congr 1
      omega

lemma everyNthAux_getD {α : Type _} (step : Nat) (h : 1 ≤ step) (d : α) :
    ∀ (l : List α) (k i : Nat),
      (everyNthAux step l k).getD i d = l.getD (k + i * step) d := by
  intro l
  induction l with
  | nil => intro k i; simp [everyNthAux]
  | cons x xs ih =>
    intro k i
    cases k with
    | zero =>
      cases i with
      | zero => simp [everyNthAux]
      | succ i =>
        simp only [everyNthAux, List.getD_cons_succ]
        rw [ih (step - 1) i]
        have e : Nat.succ i * step = (step - 1 + i * step) + 1 := by
          rw [Nat.succ_mul]
          omega
        rw [Nat.zero_add, e, List.getD_cons_succ]
    | succ k =>
      simp only [everyNthAux]
      rw [ih k i]
      have e : k + 1 + i * step = (k + i * step) + 1 := by omega
      rw [e, List.getD_cons_succ]

lemma everyNth_length {α : Type _} (step : Nat) (h : 1 ≤ step) (l : List α) :
    (everyNth l step).length = (l.length + step - 1) / step := by
  unfold everyNth
  rw [everyNthAux_length step h l 0 (by omega)]
  congr 1
  omega

lemma everyNth_getD {α : Type _} (step : Nat) (h : 1 ≤ step) (d : α) (l : List α) (i : Nat) :
    (everyNth l step).getD i d = l.getD (i * step) d := by
  unfold everyNth
  rw [everyNthAux_getD step h d l 0 i, Nat.zero_add]

/-! # Claim C1 -/

/-- C1 counterexample: the claim predicts at most 5000 points for a
12,000-sample series, but `decimate` uses the floor quotient as its stride
(`step = max 1 (12000 / 5000) = 2`) and returns 6000 points. -/
theorem decimate_12000_exceeds_5000 :
    (decimate (List.range 12000)).length = 6000 ∧
      ¬ (decimate (List.range 12000)).length ≤ 5000 := by
  have h : (decimate (List.range 12000)).length = 6000 := by
    unfold decimate
    rw [if_pos (by simp)]
    rw [everyNth_length _ (by simp) _]
    simp
  exact ⟨h, by omega⟩

/-- C1 (amended): for a series of length at most `maxPoints = 5000`,
`decimate` returns it unchanged; for a longer series it keeps every
`(len / 5000)`-th sample (floor quotient, not the ceiling the claim states)
in original order, returning `ceil (len / step)` points — which can exceed
5000, e.g. 6000 points for a 12,000-sample series. -/
theorem decimate_keeps_every_floor_step (l : List Int) :
    (l.length ≤ 5000 → decimate l = l) ∧
    (5000 < l.length →
      (decimate l).length = (l.length + l.length / 5000 - 1) / (l.length / 5000) ∧
      ∀ i, (decimate l).getD i 0 = l.getD (i * (l.length / 5000)) 0) := by
  constructor
  · intro hle
    unfold decimate
    rw [if_neg (by omega)]
  · intro hgt
    have hstep : 1 ≤ l.length / 5000 := (Nat.one_le_div_iff (by norm_num)).2 (by omega)
    have hmax : max 1 (l.length / 5000) = l.length / 5000 := Nat.max_eq_right hstep
    constructor
    · unfold decimate
      rw [if_pos (by omega), hmax, everyNth_length _ hstep]
    · intro i
      unfold decimate
      rw [if_pos (by omega), hmax, everyNth_getD _ hstep]

/-- Witness for C1's amended theorem: both branches at concrete inputs. -/
theorem decimate_keeps_every_floor_step_witness :
    decimate [(1 : Int), 2, 3] = [1, 2, 3] ∧
      (decimate (List.replicate 5001 (0 : Int))).length = 5001 := by
  constructor
  · exact (decimate_keeps_every_floor_step [1, 2, 3]).1 (by decide)
  · have h := ((decimate_keeps_every_floor_step (List.replicate 5001 0)).2
      (by rw [List.length_replicate]; norm_num)).1
    rw [List.length_replicate] at h
    norm_num at h
    exact h

/-! # Claim C2 -/

/-- C2 counterexample: in the primary tier (`scrape_page`'s selector loop),
a node that exists but has empty text is not passed over — the loop breaks at
the first existing node, so the later selector's `"45 min"` is never used. -/
theorem primary_takes_first_node_even_if_empty :
    scrape_page_field [some "", some "45 min"] = some "" ∧
      scrape_page_field [some "", some "45 min"] ≠ some "45 min" := by
  constructor
  · decide
  · decide

/-- C2 (amended): in the primary tier the duration text used is that of the
first selector in the list whose node exists, even when its stripped text is
empty; only the retry tier's `scrape_duration_value` passes over selectors
with empty text in favour of later selectors. -/
theorem primary_and_retry_selector_semantics (nodes : List (Option String)) :
    scrape_page_field nodes = (nodes.findSome? id).map pyStrip ∧
    scrape_duration_value nodes =
      (nodes.filterMap (Option.map pyStrip)).find? (fun t => !(t == "")) := by
  constructor
  · induction nodes with
    | nil => rfl
    | cons n rest ih =>
      cases n with
      | none => simpa [scrape_page_field, List.findSome?_cons] using ih
      | some t => simp [scrape_page_field, List.findSome?_cons]
  · induction nodes with
    | nil => rfl
    | cons n rest ih =>
      cases n with
      | none => simpa [scrape_duration_value] using ih
      | some t =>
        have hfm : List.filterMap (Option.map pyStrip) (some t :: rest)
            = pyStrip t :: List.filterMap (Option.map pyStrip) rest := by
          simp [List.filterMap_cons]
        by_cases h : pyStrip t = ""
        · rw [hfm, List.find?_cons_of_neg _ (by simp [h])]
          simpa [scrape_duration_value, h] using ih
        · rw [hfm, List.find?_cons_of_pos _ (by simp [h])]
          simp [scrape_duration_value, h]

/-! # Claim C3 -/

/-- C3 counterexample: a navigation failure on the first route aborts the
whole run — the following route, which on its own would produce a sample,
yields nothing. -/
theorem navigation_failure_aborts_rest_of_run :
    runRoutes [Except.error "nav timeout", Except.ok examplePage] = ([], some "nav timeout") ∧
      runRoutes [Except.ok examplePage] = ([some 45], none) := by
  constructor
  · decide
  · decide

/-- C3 (amended): the navigation failure is propagated to the caller, but it
aborts the entire remaining run, not just the failing route's cycle: every
route before the first failure is processed, no route after it is. -/
theorem runRoutes_stops_at_first_navigation_failure
    (good : List PageModel) (e : String) (rest : List (Except String PageModel)) :
    runRoutes (good.map Except.ok ++ Except.error e :: rest) =
      (good.map fun pg => (extract_pipeline pg).duration_minutes, some e) ∧
    runRoutes (good.map Except.ok) =
      (good.map fun pg => (extract_pipeline pg).duration_minutes, none) := by
  constructor
  · induction good with
    | nil => rfl
    | cons pg rest2 ih => simp [runRoutes, ih]
  · induction good with
    | nil => rfl
    | cons pg rest2 ih => simp [runRoutes, ih]

/-! # Lemmas about the CSV store -/

lemma rowPoints_length (rows : List CsvRow) :
    (rowPoints rows).length = (rows.filter rowOk).length := by
  induction rows with
  | nil => rfl
  | cons r rest ih =>
    simp only [rowPoints, List.filterMap_cons, List.filter_cons] at *
    cases h1 : parse_timestamp r.timestamp_local with
    | none => simp [rowOk, h1, ih]
    | some ts =>
      cases h2 : r.duration_minutes with
      | none => simp [rowOk, h1, h2, ih]
      | some d => simp [rowOk, h1, h2, ih]

lemma tsLe_trans (a b c : PyDateTime × Int) : tsLe a b → tsLe b c → tsLe a c := by
  simp only [tsLe, decide_eq_true_eq]
  omega

lemma tsLe_total (a b : PyDateTime × Int) : tsLe a b || tsLe b a := by
  simp only [tsLe, Bool.or_eq_true, decide_eq_true_eq]
  omega

/-! # Claim C6 -/

/-- C6: `load_csv_points` returns exactly the projection of the rows whose
timestamp parses and whose duration is numeric (so N well-formed rows read
back as N samples), sorted ascending by timestamp, and a timestamp lacking
zone info is interpreted in the configured local zone. -/
theorem load_csv_points_spec (rows : List CsvRow) :
    (load_csv_points rows).Perm (rowPoints rows) ∧
    List.Sorted (fun p q => instantOf p.1 ≤ instantOf q.1) (load_csv_points rows) ∧
    (load_csv_points rows).length = (rows.filter rowOk).length ∧
    ∀ dt : PyDateTime, dt.tz = none →
      parse_timestamp (some dt) = some { dt with tz := some LOCAL_OFFSET } := by
  refine ⟨List.mergeSort_perm _ _, ?_, ?_, ?_⟩
  · have h := @List.sorted_mergeSort _ tsLe tsLe_trans tsLe_total (rowPoints rows)
    exact h.imp fun hb => of_decide_eq_true hb
  · unfold load_csv_points
    rw [List.length_mergeSort]
    exact rowPoints_length rows
  · intro dt h
    simp [parse_timestamp, h]

/-- Witness for C6: a concrete naive timestamp acquires the local zone. -/
theorem load_csv_points_spec_witness :
    parse_timestamp (some ⟨100, none⟩) = some ⟨100, some LOCAL_OFFSET⟩ :=
  (load_csv_points_spec []).2.2.2 ⟨100, none⟩ rfl

/-! # Claim C10 -/

/-- C10: read-back applies no positivity filter — a persisted row whose
timestamp parses and whose duration parses as a non-positive number is
still included in the returned series. -/
theorem load_csv_points_keeps_nonpositive (rows : List CsvRow) (row : CsvRow)
    (t : PyDateTime) (d : Int) (hrow : row ∈ rows)
    (ht : parse_timestamp row.timestamp_local = some t)
    (hd : row.duration_minutes = some d) (_hnp : d ≤ 0) :
    (t, d) ∈ load_csv_points rows := by
  have hmem : (t, d) ∈ rowPoints rows := by
    unfold rowPoints
    exact List.mem_filterMap.2 ⟨row, hrow, by rw [ht, hd]⟩
  unfold load_csv_points
  exact List.mem_mergeSort.2 hmem

/-- Witness for C10: a row with duration `-3` survives read-back. -/
theorem load_csv_points_keeps_nonpositive_witness :
    ((⟨100, some LOCAL_OFFSET⟩ : PyDateTime), (-3 : Int)) ∈
      load_csv_points [⟨some ⟨100, none⟩, some (-3)⟩] :=
  load_csv_points_keeps_nonpositive [⟨some ⟨100, none⟩, some (-3)⟩]
    ⟨some ⟨100, none⟩, some (-3)⟩ ⟨100, some LOCAL_OFFSET⟩ (-3)
    (by simp) (by decide) rfl (by norm_num)

/-! # Lemmas about Python min/max folds and sorted lists -/

lemma pyMin_cons {α : Type _} [LinearOrder α] (v a : α) (vs : List α) :
    pyMin v (a :: vs) = pyMin (min v a) vs := rfl

lemma pyMin_mem {α : Type _} [LinearOrder α] (v : α) (vs : List α) : pyMin v vs ∈ v :: vs := by
  induction vs generalizing v with
  | nil => simp [pyMin]
  | cons a vs ih =>
    rw [pyMin_cons]
    rcases List.mem_cons.1 (ih (min v a)) with h | h
    · rcases min_choice v a with hm | hm
      · rw [h, hm]; exact List.mem_cons_self _ _
      · rw [h, hm]; exact List.mem_cons_of_mem _ (List.mem_cons_self _ _)
    · exact List.mem_cons_of_mem _ (List.mem_cons_of_mem _ h)

lemma pyMin_le {α : Type _} [LinearOrder α] (v : α) (vs : List α) :
    ∀ y ∈ v :: vs, pyMin v vs ≤ y := by
  induction vs generalizing v with
  | nil =>
    intro y hy
    simp only [List.mem_singleton] at hy
    simp [pyMin, hy]
  | cons a vs ih =>
    intro y hy
    rw [pyMin_cons]
    have hhead : pyMin (min v a) vs ≤ min v a :=
      ih (min v a) (min v a) (List.mem_cons_self _ _)
    rcases List.mem_cons.1 hy with rfl | hy2
    · exact le_trans hhead (min_le_left _ _)
    · rcases List.mem_cons.1 hy2 with rfl | hy3
      · exact le_trans hhead (min_le_right _ _)
      · exact ih (min v a) y (List.mem_cons_of_mem _ hy3)

lemma pyMax_cons {α : Type _} [LinearOrder α] (v a : α) (vs : List α) :
    pyMax v (a :: vs) = pyMax (max v a) vs := rfl

lemma pyMax_mem {α : Type _} [LinearOrder α] (v : α) (vs : List α) : pyMax v vs ∈ v :: vs := by
  induction vs generalizing v with
  | nil => simp [pyMax]
  | cons a vs ih =>
    rw [pyMax_cons]
    rcases List.mem_cons.1 (ih (max v a)) with h | h
    · rcases max_choice v a with hm | hm
      · rw [h, hm]; exact List.mem_cons_self _ _
      · rw [h, hm]; exact List.mem_cons_of_mem _ (List.mem_cons_self _ _)
    · exact List.mem_cons_of_mem _ (List.mem_cons_of_mem _ h)

lemma pyMax_ge {α : Type _} [LinearOrder α] (v : α) (vs : List α) :
    ∀ y ∈ v :: vs, y ≤ pyMax v vs := by
  induction vs generalizing v with
  | nil =>
    intro y hy
    simp only [List.mem_singleton] at hy
    simp [pyMax, hy]
  | cons a vs ih =>
    intro y hy
    rw [pyMax_cons]
    have hhead : max v a ≤ pyMax (max v a) vs :=
      ih (max v a) (max v a) (List.mem_cons_self _ _)
    rcases List.mem_cons.1 hy with rfl | hy2
    · exact le_trans (le_max_left _ _) hhead
    · rcases List.mem_cons.1 hy2 with rfl | hy3
      · exact le_trans (le_max_right _ _) hhead
      · exact ih (max v a) y (List.mem_cons_of_mem _ hy3)

lemma sorted_head_eq_pyMin {s : List ℚ} {v : ℚ} {vs : List ℚ}
    (hperm : s.Perm (v :: vs)) (hs : List.Sorted (· ≤ ·) s) :
    s.getD 0 0 = pyMin v vs := by
  cases s with
  | nil =>
    have := hperm.length_eq
    simp at this
  | cons b bs =>
    have hb : b ∈ v :: vs := hperm.subset (List.mem_cons_self _ _)
    have h1 : pyMin v vs ≤ b := pyMin_le v vs b hb
    have hmem : pyMin v vs ∈ b :: bs := hperm.mem_iff.2 (pyMin_mem v vs)
    have h2 : b ≤ pyMin v vs := by
      rcases List.mem_cons.1 hmem with h | h
      · rw [h]
      · exact List.rel_of_sorted_cons hs _ h
    simpa using le_antisymm h2 h1

lemma sorted_last_eq_pyMax {s : List ℚ} {v : ℚ} {vs : List ℚ}
    (hperm : s.Perm (v :: vs)) (hs : List.Sorted (· ≤ ·) s) :
    s.getD (s.length - 1) 0 = pyMax v vs := by
  rcases List.eq_nil_or_concat s with rfl | ⟨l, b, rfl⟩
  · have := hperm.length_eq
    simp at this
  · simp only [List.concat_eq_append] at hperm hs ⊢
    have hgetD : (l ++ [b]).getD ((l ++ [b]).length - 1) 0 = b := by
      rw [List.getD_eq_getElem?_getD]
      have hlen : (l ++ [b]).length - 1 = l.length := by simp
      rw [hlen, List.getElem?_append_right (le_refl _)]
      simp
    rw [hgetD]
    have hb : b ∈ v :: vs := hperm.subset (by simp)
    have h1 : b ≤ pyMax v vs := pyMax_ge v vs b hb
    have hmem : pyMax v vs ∈ l ++ [b] := hperm.mem_iff.2 (pyMax_mem v vs)
    have hpa := (List.pairwise_append.1 hs).2.2
    have h2 : pyMax v vs ≤ b := by
      rcases List.mem_append.1 hmem with h | h
      · exact hpa _ h b (List.mem_singleton_self _)
      · rw [List.mem_singleton.1 h]
    exact le_antisymm h1 h2

/-! # Claim C7 -/

/-- C7: `percentile` agrees with the specified behaviour — minimum for
`p ≤ 0`, maximum for `p ≥ 100`, linear interpolation between the bracketing
order statistics of the sorted values at rank `(len-1)·p/100` otherwise —
and `percentile [10,20,30,40] 50 = 25`. -/
theorem percentile_matches_spec (values : List ℚ) (pct : ℚ) (h : values ≠ []) :
    percentile values pct = percentileSpec values pct ∧
    percentile [10, 20, 30, 40] 50 = some 25 := by
  constructor
  · obtain ⟨v, vs, rfl⟩ := List.exists_cons_of_ne_nil h
    have hperm : ((v :: vs).mergeSort (fun a b => a ≤ b)).Perm (v :: vs) :=
      List.mergeSort_perm _ _
    have hsorted : List.Sorted (· ≤ ·) ((v :: vs).mergeSort (fun a b => a ≤ b)) :=
      List.sorted_mergeSort' _
    have hlen : ((v :: vs).mergeSort (fun a b => a ≤ b)).length = vs.length + 1 := by
      rw [List.length_mergeSort]; rfl
    simp only [percentile, percentileSpec, if_neg (List.cons_ne_nil v vs)]
    by_cases h0 : pct ≤ 0
    · rw [if_pos h0, if_pos h0, sorted_head_eq_pyMin hperm hsorted]
    · rw [if_neg h0, if_neg h0]
      by_cases h100 : 100 ≤ pct
      · rw [if_pos h100, if_pos h100, sorted_last_eq_pyMax hperm hsorted]
      · rw [if_neg h100, if_neg h100]
        set s := (v :: vs).mergeSort (fun a b => a ≤ b) with hs_def
        have hn1 : 1 ≤ s.length := by omega
        have hkk : ((s.length : ℚ) - 1) * (pct / 100) = ((s.length : ℚ) - 1) * pct / 100 :=
          (mul_div_assoc _ _ _).symm
        set k : ℚ := ((s.length : ℚ) - 1) * (pct / 100) with hk_def
        have hpct0 : 0 < pct := not_le.1 h0
        have hk0 : 0 ≤ k := by
          apply mul_nonneg
          · have : (1 : ℚ) ≤ (s.length : ℚ) := by exact_mod_cast hn1
            linarith
          · positivity
        have htr : pyTrunc k = ⌊k⌋ := if_pos hk0
        rw [htr, ← hkk]
        have hkle : k ≤ (s.length : ℚ) - 1 := by
          rw [hk_def]
          have hb1 : pct / 100 ≤ 1 := by
            rw [div_le_one (by norm_num)]
            linarith
          have hb0 : (0 : ℚ) ≤ (s.length : ℚ) - 1 := by
            have : (1 : ℚ) ≤ (s.length : ℚ) := by exact_mod_cast hn1
            linarith
          nlinarith
        have hfloor_le : ⌊k⌋ ≤ (s.length : ℤ) - 1 := by
          have h1 : (⌊k⌋ : ℚ) ≤ (s.length : ℚ) - 1 := le_trans (Int.floor_le k) hkle
          exact_mod_cast h1
        by_cases hint : ((⌊k⌋ : ℚ) = k)
        · -- `k` is an integer: both sides reduce to the order statistic at `⌊k⌋`.
          have hceil : ⌈k⌉ = ⌊k⌋ := by
            rw [← hint]
            exact Int.ceil_intCast _
          have hsub : k - ((⌊k⌋ : ℤ) : ℚ) = 0 := by rw [hint]; exact sub_self k
          rw [hceil, hsub]
          simp only [zero_mul, mul_zero, add_zero]
          by_cases hfc : (⌊k⌋ : ℤ) = min (⌊k⌋ + 1) ((s.length : ℤ) - 1)
          · rw [if_pos hfc]
          · rw [if_neg hfc]
            have hc : min (⌊k⌋ + 1) ((s.length : ℤ) - 1) = ⌊k⌋ + 1 := by omega
            have h1 : (((⌊k⌋ + 1 : ℤ)) : ℚ) - k = 1 := by
              push_cast
              rw [hint]
              ring
            rw [hc, h1, mul_one]
        · -- `k` is not an integer: the stride and ceiling agree and the two
          -- interpolation formulas are equal by ring arithmetic.
          have hflt : (⌊k⌋ : ℚ) < k := lt_of_le_of_ne (Int.floor_le k) hint
          have hceil : ⌈k⌉ = ⌊k⌋ + 1 := by
            have hup : ⌈k⌉ ≤ ⌊k⌋ + 1 := Int.ceil_le_floor_add_one k
            have hlow : (⌊k⌋ : ℚ) < (⌈k⌉ : ℚ) := lt_of_lt_of_le hflt (Int.le_ceil k)
            have : ⌊k⌋ < ⌈k⌉ := by exact_mod_cast hlow
            omega
          have hn2 : 2 ≤ s.length := by
            by_contra hlt
            have h1 : s.length = 1 := by omega
            apply hint
            rw [hk_def, h1]
            norm_num
          have hklt : k < (s.length : ℚ) - 1 := by
            rw [hk_def]
            have hb1 : pct / 100 < 1 := by
              rw [div_lt_one (by norm_num)]
              linarith
            have hb0 : (0 : ℚ) < (s.length : ℚ) - 1 := by
              have : (2 : ℚ) ≤ (s.length : ℚ) := by exact_mod_cast hn2
              linarith
            nlinarith
          have hfn : ⌊k⌋ + 1 ≤ (s.length : ℤ) - 1 := by
            have : (⌊k⌋ : ℚ) < (s.length : ℚ) - 1 := lt_trans hflt hklt
            have h2 : ⌊k⌋ < (s.length : ℤ) - 1 := by exact_mod_cast this
            omega
          have hc : min (⌊k⌋ + 1) ((s.length : ℤ) - 1) = ⌊k⌋ + 1 := min_eq_left hfn
          rw [hc, if_neg (by omega), hceil]
          rw [Option.some.injEq]
          push_cast
          ring
  · -- The concrete example: `[10,20,30,40]` is already sorted.
    have hsid : ([10, 20, 30, 40] : List ℚ).mergeSort (fun a b => a ≤ b)
        = [10, 20, 30, 40] := List.mergeSort_of_sorted (by decide)
    simp only [percentile, hsid]
    rw [if_neg (by simp)]
    rw [if_neg (by norm_num), if_neg (by norm_num)]
    have hk : ((([10, 20, 30, 40] : List ℚ).length : ℚ) - 1) * ((50 : ℚ) / 100)
        = 3 / 2 := by norm_num
    rw [hk]
    have htr : pyTrunc (3 / 2 : ℚ) = 1 := by
      rw [pyTrunc, if_pos (by norm_num)]
      rw [Int.floor_eq_iff]
      norm_num
    rw [htr]
    have hc : min ((1 : ℤ) + 1) ((([10, 20, 30, 40] : List ℚ).length : ℤ) - 1) = 2 := by
      norm_num
    rw [hc, if_neg (by norm_num)]
    have g1 : ([10, 20, 30, 40] : List ℚ).getD (Int.toNat 1) 0 = 20 := rfl
    have g2 : ([10, 20, 30, 40] : List ℚ).getD (Int.toNat 2) 0 = 30 := rfl
    rw [g1, g2]
    norm_num

/-- Witness for C7: the refinement applied at a concrete input. -/
theorem percentile_matches_spec_witness :
    percentile [10, 20, 30, 40] 77 = percentileSpec [10, 20, 30, 40] 77 :=
  (percentile_matches_spec [10, 20, 30, 40] 77 (by simp)).1

/-! # Lemmas about the multi-card selection -/

/-- `list.index(m)` followed by indexing the two parallel lists recovers the
first pair whose second component is `m`. -/
lemma find_pair_of_mem {l : List (String × Int)} {m : Int} (hm : m ∈ l.map Prod.snd) :
    l.find? (fun q => q.2 == m) =
      some ((l.map Prod.fst).getD ((l.map Prod.snd).indexOf m) "",
        (l.map Prod.snd).getD ((l.map Prod.snd).indexOf m) 0) := by
  induction l with
  | nil => simp at hm
  | cons q l ih =>
    by_cases hq : q.2 = m
    · rw [List.find?_cons_of_pos _ (by simp [hq])]
      simp only [List.map_cons, List.indexOf_cons, hq, BEq.refl, cond_true,
        List.getD_cons_zero]
      simp [← hq]
    · rw [List.find?_cons_of_neg _ (by simp [hq])]
      rw [List.map_cons] at hm
      have hm2 : m ∈ l.map Prod.snd := by
        rcases List.mem_cons.1 hm with h | h
        · exact absurd h.symm hq
        · exact h
      rw [ih hm2]
      have hbeq : (q.2 == m) = false := by simp [hq]
      simp only [List.map_cons, List.indexOf_cons, hbeq, cond_false,
        List.getD_cons_succ]

/-- `multi_card_select` is `find?` for the minimum candidate value. -/
lemma multi_card_select_eq_find {cards : List String} {p : String × Int}
    {ps : List (String × Int)} (h : multi_card_pairs cards = p :: ps) :
    multi_card_select cards =
      (multi_card_pairs cards).find? (fun q => q.2 == pyMin p.2 (ps.map Prod.snd)) := by
  unfold multi_card_select
  rw [h]
  simp only [List.map_cons]
  have hm : pyMin p.2 (ps.map Prod.snd) ∈ (p :: ps).map Prod.snd := by
    simpa using pyMin_mem p.2 (ps.map Prod.snd)
  rw [find_pair_of_mem hm]
  simp only [List.map_cons]

/-- Whatever `multi_card_select` returns is one of the candidate pairs. -/
lemma multi_card_select_mem {cards : List String} {p : String × Int}
    (h : multi_card_select cards = some p) : p ∈ multi_card_pairs cards := by
  cases hp : multi_card_pairs cards with
  | nil =>
    unfold multi_card_select at h
    rw [hp] at h
    simp at h
  | cons q qs =>
    rw [multi_card_select_eq_find hp, hp] at h
    exact List.mem_of_find?_eq_some h

/-- The parser only ever returns strictly positive totals. -/
lemma parse_duration_minutes_pos {o : Option String} {v : Int}
    (h : parse_duration_minutes o = some v) : 0 < v := by
  match o with
  | none => simp [parse_duration_minutes] at h
  | some s =>
    simp only [parse_duration_minutes] at h
    split at h
    · simp at h
    · split at h
      · rename_i hpos
        rw [Option.some.injEq] at h
        rw [← h]
        exact hpos
      · simp at h

/-- Every candidate pair of the multi-card fallback has positive minutes. -/
lemma multi_card_pairs_pos {cards : List String} {p : String × Int}
    (h : p ∈ multi_card_pairs cards) : 0 < p.2 := by
  unfold multi_card_pairs at h
  obtain ⟨card, _, hc⟩ := List.mem_filterMap.1 h
  split at hc
  · simp at hc
  · split at hc
    · simp at hc
    · split at hc
      · simp at hc
      · rename_i v hv
        rw [Option.some.injEq] at hc
        subst hc
        exact parse_duration_minutes_pos hv

/-! # Claim C5 -/

/-- C5: when the multi-card fallback has a nonempty candidate list, the
selected pair is the first (in card order) whose minutes equal the minimum
candidate value — its fragment is the recorded duration text — and that
minimum really is a least candidate attained by some candidate. -/
theorem multi_card_min_selection (cards : List String) (p : String × Int)
    (ps : List (String × Int)) (h : multi_card_pairs cards = p :: ps) :
    multi_card_select cards =
      (multi_card_pairs cards).find? (fun q => q.2 == pyMin p.2 (ps.map Prod.snd)) ∧
    (∀ q ∈ multi_card_pairs cards, pyMin p.2 (ps.map Prod.snd) ≤ q.2) ∧
    pyMin p.2 (ps.map Prod.snd) ∈ (multi_card_pairs cards).map Prod.snd := by
  refine ⟨multi_card_select_eq_find h, ?_, ?_⟩
  · intro q hq
    rw [h] at hq
    have : q.2 ∈ p.2 :: ps.map Prod.snd := by
      rcases List.mem_cons.1 hq with rfl | h2
      · exact List.mem_cons_self _ _
      · exact List.mem_cons_of_mem _ (List.mem_map_of_mem Prod.snd h2)
    exact pyMin_le _ _ _ this
  · rw [h]
    simpa using pyMin_mem p.2 (ps.map Prod.snd)

/-- Witness for C5: candidates `[42, 38, 50]` select the minimum, `38`,
with its source fragment. -/
theorem multi_card_min_selection_witness :
    multi_card_select ["42 min", "38 min", "50 min"] = some ("38 min", 38) := by
  rw [(multi_card_min_selection ["42 min", "38 min", "50 min"] ("42 min", 42)
    [("38 min", 38), ("50 min", 50)] (by decide)).1]
  decide

/-! # Lemmas about the extraction pipeline -/

/-- Snapshots are truncated to at most 800 characters. -/
lemma snapshot_text_length_le (a b : Option String) :
    (snapshot_text a b).length ≤ 800 := by
  have hof : ∀ (o : Option String) (s : String), snapshotOf o = some s →
      s.length ≤ 800 := by
    intro o s ho
    match o with
    | none => simp [snapshotOf] at ho
    | some t =>
      simp only [snapshotOf] at ho
      split at ho
      · simp at ho
      · rw [Option.some.injEq] at ho
        subst ho
        show ((pyFlatten (pyStrip t)).data.take 800).length ≤ 800
        rw [List.length_take]
        omega
  unfold snapshot_text
  split
  · rename_i s hs
    exact hof _ _ hs
  · split
    · rename_i s hs
      exact hof _ _ hs
    · simp

/-- The retry tier only produces minutes through the parser. -/
lemma retry_step_pos {ns : List (Option String)} {t0 : Option String} {v : Int}
    (h : (retry_step ns t0).2 = some v) : 0 < v := by
  unfold retry_step at h
  split at h
  · split at h
    · simp at h
    · exact parse_duration_minutes_pos (by simpa using h)
  · simp at h

/-- The single-card tier only produces minutes through the parser. -/
lemma card_step_pos {frag t1 : Option String} {v : Int}
    (h : (card_step frag t1).2 = some v) : 0 < v := by
  unfold card_step at h
  split at h
  · split at h
    · simp at h
    · exact parse_duration_minutes_pos (by simpa using h)
  · simp at h

/-- Case analysis over the whole pipeline: a null duration is always
accompanied by a bounded diagnostic, and a non-null duration is positive. -/
lemma extract_pipeline_characterization (pg : PageModel) :
    ((extract_pipeline pg).duration_minutes = none →
      ∃ d, (extract_pipeline pg).diagnostic = some d ∧ d.snapshot.length ≤ 800) ∧
    (∀ v, (extract_pipeline pg).duration_minutes = some v → 0 < v) := by
  cases hp : parse_duration_minutes (scrape_page_field pg.primaryNodes) with
  | some v =>
    have he : extract_pipeline pg
        = ⟨scrape_page_field pg.primaryNodes, some v, none⟩ := by
      simp only [extract_pipeline, hp]
    rw [he]
    refine ⟨by simp, ?_⟩
    intro w hw
    simp only [Option.some.injEq] at hw
    subst hw
    exact parse_duration_minutes_pos hp
  | none =>
    cases h1 : (retry_step pg.retryNodes (scrape_page_field pg.primaryNodes)).2 with
    | some v =>
      have he : extract_pipeline pg
          = ⟨(retry_step pg.retryNodes (scrape_page_field pg.primaryNodes)).1,
              some v, none⟩ := by
        simp only [extract_pipeline, hp, h1]
      rw [he]
      refine ⟨by simp, ?_⟩
      intro w hw
      simp only [Option.some.injEq] at hw
      subst hw
      exact retry_step_pos h1
    | none =>
      cases h2 : (card_step (card_fragment pg.firstCard)
          (retry_step pg.retryNodes (scrape_page_field pg.primaryNodes)).1).2 with
      | some v =>
        have he : extract_pipeline pg
            = ⟨(card_step (card_fragment pg.firstCard)
                (retry_step pg.retryNodes (scrape_page_field pg.primaryNodes)).1).1,
                some v, none⟩ := by
          simp only [extract_pipeline, hp, h1, h2]
        rw [he]
        refine ⟨by simp, ?_⟩
        intro w hw
        simp only [Option.some.injEq] at hw
        subst hw
        exact card_step_pos h2
      | none =>
        cases hsel : multi_card_select (route_cards_texts pg.cards) with
        | some p =>
          have he : extract_pipeline pg = ⟨some p.1, some p.2, none⟩ := by
            simp only [extract_pipeline, hp, h1, h2, hsel]
          rw [he]
          refine ⟨by simp, ?_⟩
          intro w hw
          simp only [Option.some.injEq] at hw
          subst hw
          exact multi_card_pairs_pos (multi_card_select_mem hsel)
        | none =>
          have he : extract_pipeline pg
              = ⟨(card_step (card_fragment pg.firstCard)
                    (retry_step pg.retryNodes (scrape_page_field pg.primaryNodes)).1).1,
                  none,
                  some ⟨scrape_page_field pg.primaryNodes,
                    scrape_duration_value pg.retryNodes,
                    card_fragment pg.firstCard,
                    snapshot_text pg.firstCard pg.body⟩⟩ := by
            simp only [extract_pipeline, hp, h1, h2, hsel]
          rw [he]
          refine ⟨?_, by simp⟩
          intro h
          exact ⟨_, rfl, snapshot_text_length_le _ _⟩

/-! # Claim C8 -/

/-- C8: whenever no tier recovers a duration (the produced sample has a null
`duration_minutes`), the pipeline — a total function, so no exception is
raised for a missing or unparseable duration — emits a diagnostic record
whose page-text snapshot is at most 800 characters long. -/
theorem failed_extraction_emits_diag (pg : PageModel)
    (h : (extract_pipeline pg).duration_minutes = none) :
    ∃ d, (extract_pipeline pg).diagnostic = some d ∧ d.snapshot.length ≤ 800 :=
  (extract_pipeline_characterization pg).1 h

/-- Witness for C8: the all-tiers-failing page gets a bounded diagnostic. -/
theorem failed_extraction_emits_diag_witness :
    ∃ d, (extract_pipeline failingPage).diagnostic = some d ∧
      d.snapshot.length ≤ 800 :=
  failed_extraction_emits_diag failingPage (by decide)

/-! # Claim C9 -/

/-- C9: every sample the pipeline produces has a strictly positive or null
`duration_minutes` — never zero, never negative. -/
theorem extract_pipeline_duration_positive (pg : PageModel) (v : Int)
    (h : (extract_pipeline pg).duration_minutes = some v) : 0 < v :=
  (extract_pipeline_characterization pg).2 v h

/-- Witness for C9: the primary-tier sample `45` is positive. -/
theorem extract_pipeline_duration_positive_witness :
    (0 : Int) < 45 ∧ (extract_pipeline examplePage).duration_minutes = some 45 :=
  ⟨extract_pipeline_duration_positive examplePage 45 (by decide), by decide⟩

/-! # Lemmas about characters, `replace` and `split` -/

lemma pySpace_toNat_le {c : Char} (h : isPySpace c = true) : c.toNat ≤ 32 := by
  simp only [isPySpace, decide_eq_true_eq] at h
  omega

lemma digit_toNat {c : Char} (h : isDigitChar c = true) :
    48 ≤ c.toNat ∧ c.toNat ≤ 57 := by
  simpa only [isDigitChar, decide_eq_true_eq] using h

lemma pyLowerChar_of_lt {c : Char} (h : c.toNat < 65) : pyLowerChar c = c := by
  unfold pyLowerChar
  rw [if_neg]
  omega

lemma pyLowerChar_space {c : Char} (h : isPySpace c = true) : pyLowerChar c = c :=
  pyLowerChar_of_lt (by have := pySpace_toNat_le h; omega)

lemma pyLowerChar_digit {c : Char} (h : isDigitChar c = true) : pyLowerChar c = c :=
  pyLowerChar_of_lt (by have := digit_toNat h; omega)

lemma isPySpace_of_digit {c : Char} (h : isDigitChar c = true) :
    isPySpace c = false := by
  have hd := digit_toNat h
  simp only [isPySpace, decide_eq_false_iff_not]
  omega

lemma digit_ne_s {c : Char} (h : isDigitChar c = true) : c ≠ 's' := by
  intro he
  subst he
  exact absurd h (by decide)

lemma pySpace_ne_s {c : Char} (h : isPySpace c = true) : c ≠ 's' := by
  intro he
  subst he
  exact absurd h (by decide)

lemma isPrefixOf_subset {pat l : List Char} (h : pat.isPrefixOf l = true) :
    ∀ x ∈ pat, x ∈ l := by
  induction pat generalizing l with
  | nil => intro x hx; simp at hx
  | cons a as ih =>
    match l with
    | [] => simp [List.isPrefixOf] at h
    | b :: bs =>
      simp only [List.isPrefixOf, Bool.and_eq_true, beq_iff_eq] at h
      intro x hx
      rcases List.mem_cons.1 hx with rfl | hx2
      · rw [h.1]
        exact List.mem_cons_self _ _
      · exact List.mem_cons_of_mem _ (ih h.2 x hx2)

/-- A pattern containing `'s'` cannot match inside a text without `'s'`,
so `replace` leaves the text unchanged (any fuel). -/
lemma replaceAllF_no_s {pat repl : List Char} (hs : 's' ∈ pat) :
    ∀ (fuel : Nat) (cs : List Char), (∀ c ∈ cs, c ≠ 's') →
      replaceAllF pat repl fuel cs = cs := by
  intro fuel
  induction fuel with
  | zero => intro cs _; rfl
  | succ fuel ih =>
    intro cs h
    match cs with
    | [] => rfl
    | c :: cs2 =>
      simp only [replaceAllF]
      rw [if_neg]
      · rw [ih cs2 fun x hx => h x (List.mem_cons_of_mem _ hx)]
      · rintro ⟨_, hpre⟩
        exact h 's' (isPrefixOf_subset hpre 's' hs) rfl

lemma replaceAll_no_s {pat repl cs : List Char} (hs : 's' ∈ pat)
    (h : ∀ c ∈ cs, c ≠ 's') : replaceAll pat repl cs = cs :=
  replaceAllF_no_s hs _ cs h

lemma splitWSAux_space_nil {ws : List Char} (h : ∀ c ∈ ws, isPySpace c = true)
    (rest : List Char) : splitWSAux (ws ++ rest) [] = splitWSAux rest [] := by
  induction ws with
  | nil => rfl
  | cons c ws ih =>
    have hc := h c (List.mem_cons_self _ _)
    simp only [List.cons_append, splitWSAux, hc, if_true, List.isEmpty_nil]
    exact ih fun x hx => h x (List.mem_cons_of_mem _ hx)

lemma splitWSAux_space_all {ws : List Char} (h : ∀ c ∈ ws, isPySpace c = true) :
    splitWSAux ws [] = [] := by
  have h2 := splitWSAux_space_nil h []
  simpa [splitWSAux] using h2

lemma splitWSAux_word {w : List Char} (h : ∀ c ∈ w, isPySpace c = false) :
    ∀ (rest acc : List Char),
      splitWSAux (w ++ rest) acc = splitWSAux rest (w.reverse ++ acc) := by
  induction w with
  | nil => intro rest acc; simp
  | cons c w ih =>
    intro rest acc
    have hc := h c (List.mem_cons_self _ _)
    rw [List.cons_append, splitWSAux, if_neg (by simp [hc])]
    rw [ih (fun x hx => h x (List.mem_cons_of_mem _ hx)) rest (c :: acc)]
    congr 1
    simp [List.reverse_cons, List.append_assoc]

lemma splitWSAux_space_acc {ws : List Char} (h : ∀ c ∈ ws, isPySpace c = true) :
    ∀ acc : List Char, acc ≠ [] → splitWSAux ws acc = [acc.reverse] := by
  induction ws with
  | nil =>
    intro acc hacc
    simp [splitWSAux, List.isEmpty_iff, hacc]
  | cons c ws ih =>
    intro acc hacc
    have hc := h c (List.mem_cons_self _ _)
    rw [splitWSAux, if_pos (by simp [hc]), if_neg (by simp [List.isEmpty_iff, hacc])]
    rw [splitWSAux_space_all fun x hx => h x (List.mem_cons_of_mem _ hx)]

lemma splitWS_word_sep {w s rest : List Char}
    (hw : w ≠ []) (hw2 : ∀ c ∈ w, isPySpace c = false)
    (hs : s ≠ []) (hs2 : ∀ c ∈ s, isPySpace c = true) :
    splitWSAux (w ++ (s ++ rest)) [] = w :: splitWSAux rest [] := by
  rw [splitWSAux_word hw2]
  match s with
  | [] => exact absurd rfl hs
  | c :: s2 =>
    have hc := hs2 c (List.mem_cons_self _ _)
    rw [List.cons_append, splitWSAux, if_pos (by simp [hc]),
      if_neg (by simp [List.isEmpty_iff, hw])]
    rw [splitWSAux_space_nil (fun x hx => hs2 x (List.mem_cons_of_mem _ hx)) rest]
    simp

lemma splitWS_word_trail {w s : List Char}
    (hw : w ≠ []) (hw2 : ∀ c ∈ w, isPySpace c = false)
    (hs2 : ∀ c ∈ s, isPySpace c = true) :
    splitWSAux (w ++ s) [] = [w] := by
  rw [splitWSAux_word hw2]
  rw [splitWSAux_space_acc hs2 (w.reverse ++ []) (by simp [hw])]
  simp

/-! # Lemmas about the duration parser on well-formed phrases -/

lemma map_pyLower_id {l : List Char} (h : ∀ c ∈ l, pyLowerChar c = c) :
    l.map pyLowerChar = l := by
  induction l with
  | nil => rfl
  | cons c l ih =>
    rw [List.map_cons, h c (List.mem_cons_self _ _),
      ih fun x hx => h x (List.mem_cons_of_mem _ hx)]

lemma tokIsDigit_of {t : List Char} (h1 : t ≠ []) (h2 : t.all isDigitChar = true) :
    tokIsDigit t = true := by
  simp [tokIsDigit, List.isEmpty_iff, h1, h2]

lemma digits_nonspace {t : List Char} (h2 : t.all isDigitChar = true) :
    ∀ c ∈ t, isPySpace c = false :=
  fun c hc => isPySpace_of_digit (List.all_eq_true.1 h2 c hc)

lemma digits_ne_s {t : List Char} (h2 : t.all isDigitChar = true) :
    ∀ c ∈ t, c ≠ 's' :=
  fun c hc => digit_ne_s (List.all_eq_true.1 h2 c hc)

lemma spaces_ne_s {t : List Char} (h : ∀ c ∈ t, isPySpace c = true) :
    ∀ c ∈ t, c ≠ 's' :=
  fun c hc => pySpace_ne_s (h c hc)

lemma accumHM_hr_min {H M : List Char} (hH : tokIsDigit H = true)
    (hM : tokIsDigit M = true) :
    accumHM [H, hrChars, M, minChars] = (digitsVal H, digitsVal M) := by
  have e1 : hrChars.isPrefixOf hrChars = true := by decide
  have e2 : tokIsDigit hrChars = false := by decide
  have e3 : hrChars.isPrefixOf minChars = false := by decide
  have e4 : minChars.isPrefixOf minChars = true := by decide
  have e5 : tokIsDigit minChars = false := by decide
  simp [accumHM, hH, hM, e1, e2, e3, e4, e5]

lemma accumHM_hr {H : List Char} (hH : tokIsDigit H = true) :
    accumHM [H, hrChars] = (digitsVal H, 0) := by
  have e1 : hrChars.isPrefixOf hrChars = true := by decide
  have e2 : tokIsDigit hrChars = false := by decide
  simp [accumHM, hH, e1, e2]

lemma accumHM_min {M : List Char} (hM : tokIsDigit M = true) :
    accumHM [M, minChars] = (0, digitsVal M) := by
  have e3 : hrChars.isPrefixOf minChars = false := by decide
  have e4 : minChars.isPrefixOf minChars = true := by decide
  have e5 : tokIsDigit minChars = false := by decide
  simp [accumHM, hM, e3, e4, e5]

lemma accumHM_of_no_pair :
    ∀ toks : List (List Char), hasContribPair toks = false → accumHM toks = (0, 0) := by
  intro toks
  induction toks with
  | nil => intro _; rfl
  | cons t rest ih =>
    cases rest with
    | nil => intro _; rfl
    | cons u rest2 =>
      intro h
      simp only [hasContribPair, Bool.or_eq_false_iff, Bool.and_eq_false_iff] at h
      have hrec := ih h.2
      rcases h.1 with hd | hu
      · rw [accumHM, hrec]
        simp [hd]
      · rw [accumHM, hrec]
        simp [hu.1, hu.2]

/-- The normalisation step is the identity on a lowered phrase containing no
`'s'` character. -/
lemma normalizeDur_of_no_s {cs lowered : List Char}
    (hmap : cs.map pyLowerChar = lowered) (hno : ∀ c ∈ lowered, c ≠ 's') :
    normalizeDur cs = lowered := by
  unfold normalizeDur
  rw [hmap, replaceAll_no_s (by simp) hno, replaceAll_no_s (by simp) hno]

/-- A token that lowercases to `hr` has no whitespace characters. -/
lemma lowersTo_hr_nonspace {u : List Char} (hu : u.map pyLowerChar = hrChars) :
    ∀ c ∈ u, isPySpace c = false := by
  intro c hc
  have hmem : pyLowerChar c ∈ hrChars := by
    rw [← hu]
    exact List.mem_map_of_mem _ hc
  by_contra hcs
  have hcs2 : isPySpace c = true := by
    revert hcs
    cases isPySpace c <;> simp
  rw [pyLowerChar_space hcs2] at hmem
  rcases (by simpa [hrChars] using hmem : c = 'h' ∨ c = 'r') with rfl | rfl
  · exact absurd hcs2 (by decide)
  · exact absurd hcs2 (by decide)

/-- A token that lowercases to `min` has no whitespace characters. -/
lemma lowersTo_min_nonspace {v : List Char} (hv : v.map pyLowerChar = minChars) :
    ∀ c ∈ v, isPySpace c = false := by
  intro c hc
  have hmem : pyLowerChar c ∈ minChars := by
    rw [← hv]
    exact List.mem_map_of_mem _ hc
  by_contra hcs
  have hcs2 : isPySpace c = true := by
    revert hcs
    cases isPySpace c <;> simp
  rw [pyLowerChar_space hcs2] at hmem
  rcases (by simpa [minChars] using hmem : c = 'm' ∨ c = 'i' ∨ c = 'n') with rfl | rfl | rfl
  · exact absurd hcs2 (by decide)
  · exact absurd hcs2 (by decide)
  · exact absurd hcs2 (by decide)

/-- C4 phrase form `<H> hr <M> min`, arbitrary whitespace and letter case. -/
lemma parse_phrase_hr_min {H M u v ws0 ws1 ws2 ws3 ws4 : List Char}
    (hH1 : H ≠ []) (hH2 : H.all isDigitChar = true)
    (hM1 : M ≠ []) (hM2 : M.all isDigitChar = true)
    (hu : u.map pyLowerChar = hrChars) (hv : v.map pyLowerChar = minChars)
    (hws0 : ∀ c ∈ ws0, isPySpace c = true)
    (hws1 : ws1 ≠ []) (hws1s : ∀ c ∈ ws1, isPySpace c = true)
    (hws2 : ws2 ≠ []) (hws2s : ∀ c ∈ ws2, isPySpace c = true)
    (hws3 : ws3 ≠ []) (hws3s : ∀ c ∈ ws3, isPySpace c = true)
    (hws4 : ∀ c ∈ ws4, isPySpace c = true) :
    parse_duration_minutes
        (some ⟨ws0 ++ (H ++ (ws1 ++ (u ++ (ws2 ++ (M ++ (ws3 ++ (v ++ ws4)))))))⟩)
      = if 0 < digitsVal H * 60 + digitsVal M
        then some (digitsVal H * 60 + digitsVal M) else none := by
  set phrase := ws0 ++ (H ++ (ws1 ++ (u ++ (ws2 ++ (M ++ (ws3 ++ (v ++ ws4))))))) with hph
  have hlower : phrase.map pyLowerChar
      = ws0 ++ (H ++ (ws1 ++ (hrChars ++ (ws2 ++ (M ++ (ws3 ++ (minChars ++ ws4))))))) := by
    simp only [hph, List.map_append]
    rw [map_pyLower_id fun c hc => pyLowerChar_space (hws0 c hc),
      map_pyLower_id fun c hc => pyLowerChar_digit (List.all_eq_true.1 hH2 c hc),
      map_pyLower_id fun c hc => pyLowerChar_space (hws1s c hc), hu,
      map_pyLower_id fun c hc => pyLowerChar_space (hws2s c hc),
      map_pyLower_id fun c hc => pyLowerChar_digit (List.all_eq_true.1 hM2 c hc),
      map_pyLower_id fun c hc => pyLowerChar_space (hws3s c hc), hv,
      map_pyLower_id fun c hc => pyLowerChar_space (hws4 c hc)]
  have hno : ∀ c ∈ ws0 ++ (H ++ (ws1 ++ (hrChars ++
      (ws2 ++ (M ++ (ws3 ++ (minChars ++ ws4))))))), c ≠ 's' := by
    intro c hc
    simp only [List.mem_append] at hc
    rcases hc with h | h | h | h | h | h | h | h | h
    · exact spaces_ne_s hws0 c h
    · exact digits_ne_s hH2 c h
    · exact spaces_ne_s hws1s c h
    · exact (by decide : ∀ x ∈ hrChars, x ≠ 's') c h
    · exact spaces_ne_s hws2s c h
    · exact digits_ne_s hM2 c h
    · exact spaces_ne_s hws3s c h
    · exact (by decide : ∀ x ∈ minChars, x ≠ 's') c h
    · exact spaces_ne_s hws4 c h
  have htok : duration_tokens ⟨phrase⟩ = [H, hrChars, M, minChars] := by
    unfold duration_tokens
    have hdata : (⟨phrase⟩ : String).data = phrase := rfl
    rw [hdata, normalizeDur_of_no_s hlower hno]
    unfold splitWS
    rw [splitWSAux_space_nil hws0]
    rw [splitWS_word_sep hH1 (digits_nonspace hH2) hws1 hws1s]
    rw [@splitWS_word_sep hrChars ws2 _ (by decide) (by decide) hws2 hws2s]
    rw [splitWS_word_sep hM1 (digits_nonspace hM2) hws3 hws3s]
    rw [@splitWS_word_trail minChars ws4 (by decide) (by decide) hws4]
  have htotal : duration_total ⟨phrase⟩ = digitsVal H * 60 + digitsVal M := by
    unfold duration_total
    rw [htok, accumHM_hr_min (tokIsDigit_of hH1 hH2) (tokIsDigit_of hM1 hM2)]
  have hne : ¬((⟨phrase⟩ : String) = "") := by
    intro he
    have h2 : phrase = [] := by simpa using congrArg String.data he
    rw [hph] at h2
    simp only [List.append_eq_nil] at h2
    exact hH1 h2.2.1
  simp only [parse_duration_minutes]
  rw [if_neg hne, htotal]

/-- C4 phrase form `<H> hr`, arbitrary whitespace and letter case. -/
lemma parse_phrase_hr {H u ws0 ws1 ws2 : List Char}
    (hH1 : H ≠ []) (hH2 : H.all isDigitChar = true)
    (hu : u.map pyLowerChar = hrChars)
    (hws0 : ∀ c ∈ ws0, isPySpace c = true)
    (hws1 : ws1 ≠ []) (hws1s : ∀ c ∈ ws1, isPySpace c = true)
    (hws2 : ∀ c ∈ ws2, isPySpace c = true) :
    parse_duration_minutes (some ⟨ws0 ++ (H ++ (ws1 ++ (u ++ ws2)))⟩)
      = if 0 < digitsVal H * 60 then some (digitsVal H * 60) else none := by
  set phrase := ws0 ++ (H ++ (ws1 ++ (u ++ ws2))) with hph
  have hlower : phrase.map pyLowerChar
      = ws0 ++ (H ++ (ws1 ++ (hrChars ++ ws2))) := by
    simp only [hph, List.map_append]
    rw [map_pyLower_id fun c hc => pyLowerChar_space (hws0 c hc),
      map_pyLower_id fun c hc => pyLowerChar_digit (List.all_eq_true.1 hH2 c hc),
      map_pyLower_id fun c hc => pyLowerChar_space (hws1s c hc), hu,
      map_pyLower_id fun c hc => pyLowerChar_space (hws2 c hc)]
  have hno : ∀ c ∈ ws0 ++ (H ++ (ws1 ++ (hrChars ++ ws2))), c ≠ 's' := by
    intro c hc
    simp only [List.mem_append] at hc
    rcases hc with h | h | h | h | h
    · exact spaces_ne_s hws0 c h
    · exact digits_ne_s hH2 c h
    · exact spaces_ne_s hws1s c h
    · exact (by decide : ∀ x ∈ hrChars, x ≠ 's') c h
    · exact spaces_ne_s hws2 c h
  have htok : duration_tokens ⟨phrase⟩ = [H, hrChars] := by
    unfold duration_tokens
    have hdata : (⟨phrase⟩ : String).data = phrase := rfl
    rw [hdata, normalizeDur_of_no_s hlower hno]
    unfold splitWS
    rw [splitWSAux_space_nil hws0]
    rw [splitWS_word_sep hH1 (digits_nonspace hH2) hws1 hws1s]
    rw [@splitWS_word_trail hrChars ws2 (by decide) (by decide) hws2]
  have htotal : duration_total ⟨phrase⟩ = digitsVal H * 60 := by
    unfold duration_total
    rw [htok, accumHM_hr (tokIsDigit_of hH1 hH2)]
    simp
  have hne : ¬((⟨phrase⟩ : String) = "") := by
    intro he
    have h2 : phrase = [] := by simpa using congrArg String.data he
    rw [hph] at h2
    simp only [List.append_eq_nil] at h2
    exact hH1 h2.2.1
  simp only [parse_duration_minutes]
  rw [if_neg hne, htotal]

/-- C4 phrase form `<M> min`, arbitrary whitespace and letter case. -/
lemma parse_phrase_min {M v ws0 ws1 ws2 : List Char}
    (hM1 : M ≠ []) (hM2 : M.all isDigitChar = true)
    (hv : v.map pyLowerChar = minChars)
    (hws0 : ∀ c ∈ ws0, isPySpace c = true)
    (hws1 : ws1 ≠ []) (hws1s : ∀ c ∈ ws1, isPySpace c = true)
    (hws2 : ∀ c ∈ ws2, isPySpace c = true) :
    parse_duration_minutes (some ⟨ws0 ++ (M ++ (ws1 ++ (v ++ ws2)))⟩)
      = if 0 < digitsVal M then some (digitsVal M) else none := by
  set phrase := ws0 ++ (M ++ (ws1 ++ (v ++ ws2))) with hph
  have hlower : phrase.map pyLowerChar
      = ws0 ++ (M ++ (ws1 ++ (minChars ++ ws2))) := by
    simp only [hph, List.map_append]
    rw [map_pyLower_id fun c hc => pyLowerChar_space (hws0 c hc),
      map_pyLower_id fun c hc => pyLowerChar_digit (List.all_eq_true.1 hM2 c hc),
      map_pyLower_id fun c hc => pyLowerChar_space (hws1s c hc), hv,
      map_pyLower_id fun c hc => pyLowerChar_space (hws2 c hc)]
  have hno : ∀ c ∈ ws0 ++ (M ++ (ws1 ++ (minChars ++ ws2))), c ≠ 's' := by
    intro c hc
    simp only [List.mem_append] at hc
    rcases hc with h | h | h | h | h
    · exact spaces_ne_s hws0 c h
    · exact digits_ne_s hM2 c h
    · exact spaces_ne_s hws1s c h
    · exact (by decide : ∀ x ∈ minChars, x ≠ 's') c h
    · exact spaces_ne_s hws2 c h
  have htok : duration_tokens ⟨phrase⟩ = [M, minChars] := by
    unfold duration_tokens
    have hdata : (⟨phrase⟩ : String).data = phrase := rfl
    rw [hdata, normalizeDur_of_no_s hlower hno]
    unfold splitWS
    rw [splitWSAux_space_nil hws0]
    rw [splitWS_word_sep hM1 (digits_nonspace hM2) hws1 hws1s]
    rw [@splitWS_word_trail minChars ws2 (by decide) (by decide) hws2]
  have htotal : duration_total ⟨phrase⟩ = digitsVal M := by
    unfold duration_total
    rw [htok, accumHM_min (tokIsDigit_of hM1 hM2)]
    simp
  have hne : ¬((⟨phrase⟩ : String) = "") := by
    intro he
    have h2 : phrase = [] := by simpa using congrArg String.data he
    rw [hph] at h2
    simp only [List.append_eq_nil] at h2
    exact hM1 h2.2.1
  simp only [parse_duration_minutes]
  rw [if_neg hne, htotal]

/-- C4 null characterisation: the parser returns `none` exactly when the
token scan finds no digit/unit pair or the summed total is non-positive. -/
lemma parse_none_iff (s : String) :
    parse_duration_minutes (some s) = none ↔
      (hasContribPair (duration_tokens s) = false ∨ duration_total s ≤ 0) := by
  simp only [parse_duration_minutes]
  by_cases hse : s = ""
  · subst hse
    rw [if_pos rfl]
    constructor
    · intro _
      left
      decide
    · intro _
      rfl
  · rw [if_neg hse]
    by_cases hpos : 0 < duration_total s
    · rw [if_pos hpos]
      constructor
      · intro hcontra
        simp at hcontra
      · rintro (hnp | hle)
        · exfalso
          have h0 := accumHM_of_no_pair _ hnp
          have ht0 : duration_total s = 0 := by
            unfold duration_total
            rw [h0]
            decide
          omega
        · omega
    · rw [if_neg hpos]
      constructor
      · intro _
        right
        omega
      · intro _
        rfl

/-! # Claim C4 -/

/-- C4: for every phrase of the form `<H> hr <M> min`, `<H> hr` or `<M> min`
— digit tokens `H`/`M`, unit tokens of arbitrary letter case, arbitrary
nonempty whitespace between tokens and arbitrary whitespace around them —
`parse_duration_minutes` returns `H*60 + M` (an absent part contributing 0)
when that total is positive and `none` otherwise; and on every input it
returns `none` exactly when no digit-token/unit-token pair is found or the
summed total is non-positive. -/
theorem parse_duration_minutes_spec :
    (∀ H M u v ws0 ws1 ws2 ws3 ws4 : List Char,
      H ≠ [] → H.all isDigitChar = true → M ≠ [] → M.all isDigitChar = true →
      u.map pyLowerChar = hrChars → v.map pyLowerChar = minChars →
      (∀ c ∈ ws0, isPySpace c = true) →
      ws1 ≠ [] → (∀ c ∈ ws1, isPySpace c = true) →
      ws2 ≠ [] → (∀ c ∈ ws2, isPySpace c = true) →
      ws3 ≠ [] → (∀ c ∈ ws3, isPySpace c = true) →
      (∀ c ∈ ws4, isPySpace c = true) →
      parse_duration_minutes
          (some ⟨ws0 ++ (H ++ (ws1 ++ (u ++ (ws2 ++ (M ++ (ws3 ++ (v ++ ws4)))))))⟩)
        = if 0 < digitsVal H * 60 + digitsVal M
          then some (digitsVal H * 60 + digitsVal M) else none) ∧
    (∀ H u ws0 ws1 ws2 : List Char,
      H ≠ [] → H.all isDigitChar = true → u.map pyLowerChar = hrChars →
      (∀ c ∈ ws0, isPySpace c = true) →
      ws1 ≠ [] → (∀ c ∈ ws1, isPySpace c = true) →
      (∀ c ∈ ws2, isPySpace c = true) →
      parse_duration_minutes (some ⟨ws0 ++ (H ++ (ws1 ++ (u ++ ws2)))⟩)
        = if 0 < digitsVal H * 60 then some (digitsVal H * 60) else none) ∧
    (∀ M v ws0 ws1 ws2 : List Char,
      M ≠ [] → M.all isDigitChar = true → v.map pyLowerChar = minChars →
      (∀ c ∈ ws0, isPySpace c = true) →
      ws1 ≠ [] → (∀ c ∈ ws1, isPySpace c = true) →
      (∀ c ∈ ws2, isPySpace c = true) →
      parse_duration_minutes (some ⟨ws0 ++ (M ++ (ws1 ++ (v ++ ws2)))⟩)
        = if 0 < digitsVal M then some (digitsVal M) else none) ∧
    (∀ s : String, parse_duration_minutes (some s) = none ↔
      (hasContribPair (duration_tokens s) = false ∨ duration_total s ≤ 0)) := by
  refine ⟨?_, ?_, ?_, parse_none_iff⟩
  · intro H M u v ws0 ws1 ws2 ws3 ws4 h1 h2 h3 h4 h5 h6 h7 h8 h9 h10 h11 h12 h13 h14
    exact parse_phrase_hr_min h1 h2 h3 h4 h5 h6 h7 h8 h9 h10 h11 h12 h13 h14
  · intro H u ws0 ws1 ws2 h1 h2 h3 h4 h5 h6 h7
    exact parse_phrase_hr h1 h2 h3 h4 h5 h6 h7
  · intro M v ws0 ws1 ws2 h1 h2 h3 h4 h5 h6 h7
    exact parse_phrase_min h1 h2 h3 h4 h5 h6 h7

/-- Witness for C4: `"1 Hr 5 MIN"` parses to 65 minutes via the theorem. -/
theorem parse_duration_minutes_spec_witness :
    parse_duration_minutes (some "1 Hr 5 MIN") = some 65 := by
  have h := parse_duration_minutes_spec.1 ['1'] ['5'] ['H', 'r'] ['M', 'I', 'N']
    [] [' '] [' '] [' '] [] (by decide) (by decide) (by decide) (by decide)
    (by decide) (by decide) (by decide) (by decide) (by decide) (by decide)
    (by decide) (by decide) (by decide) (by decide)
  have hs : (⟨[] ++ (['1'] ++ ([' '] ++ (['H', 'r'] ++ ([' '] ++ (['5'] ++
      ([' '] ++ (['M', 'I', 'N'] ++ ([] : List Char))))))))⟩ : String)
      = "1 Hr 5 MIN" := by decide
  rw [hs] at h
  rw [(by decide : digitsVal ['1'] = (1 : Int)),
    (by decide : digitsVal ['5'] = (5 : Int))] at h
  norm_num at h
  exact h

end Gmap
